import Mathlib

/-!
Verification of the mechanical-crab serial command controller
(src/src/main.rs): a shallow embedding of the nom-based command parser,
the AnyPin dynamic role abstraction, the bounded line reader and the
dispatch loop, together with proofs about the observable serial protocol.

Machine integers are modelled as Nat: every numeric field in the program
is a u8 (pins, PWM duty, ADC channel) or a u16 (raw temperature reading),
and the embedding makes the 0..=255 bound explicit exactly where the
source checks it (u8::from_str inside the parser's map_res).
-/

namespace MechanicalCrab

/-! ### Parser combinators

The source parses with nom.  Each combinator used there (tag, alt,
all_consuming, preceded, value, map_res, take_while1, recognize) is
reproduced here over lists of characters; recognize(take_while1 ..) is
the identity wrapper on a string parser and is folded into take_while1P. -/

/-- A parser over character lists: on success, the remaining input and a
result, mirroring nom's IResult. -/
abbrev Parser (α : Type) : Type := List Char → Option (List Char × α)

/-- Strips an expected literal prefix from the input, char by char. -/
def dropPre : List Char → List Char → Option (List Char)
  | [], input => some input
  | _ :: _, [] => none
  | c :: t, b :: input => if c = b then dropPre t input else none

/-- nom tag: matches a literal and returns it together with the rest. -/
def tagP (t : List Char) : Parser (List Char) :=
  fun input => (dropPre t input).map (fun rest => (rest, t))

/-- nom alt: the first parser in the list that succeeds wins. -/
def altP {α : Type} : List (Parser α) → Parser α
  | [] => fun _ => none
  | p :: ps => fun input =>
    match p input with
    | some r => some r
    | none => altP ps input

/-- nom all_consuming: succeeds only if the inner parser leaves no input. -/
def all_consumingP {α : Type} (p : Parser α) : Parser α :=
  fun input =>
    match p input with
    | some (rest, x) => if rest = [] then some ([], x) else none
    | none => none

/-- nom preceded: runs both parsers, keeps only the second result. -/
def precededP {α β : Type} (p : Parser α) (q : Parser β) : Parser β :=
  fun input =>
    match p input with
    | some (rest, _) => q rest
    | none => none

/-- nom value: replaces a parser's result by a constant. -/
def valueP {α β : Type} (v : α) (p : Parser β) : Parser α :=
  fun input =>
    match p input with
    | some (rest, _) => some (rest, v)
    | none => none

/-- nom map_res: post-processes a result with a fallible function. -/
def map_resP {α β : Type} (p : Parser α) (f : α → Option β) : Parser β :=
  fun input =>
    match p input with
    | some (rest, x) =>
      match f x with
      | some y => some (rest, y)
      | none => none
    | none => none

/-- nom take_while1: the longest nonempty prefix of characters satisfying
the predicate; fails when that prefix is empty. -/
def take_while1P (pred : Char → Bool) : Parser (List Char) :=
  fun input =>
    match input.takeWhile pred with
    | [] => none
    | c :: cs => some (input.dropWhile pred, c :: cs)

/-! ### The command grammar (enum Command and fn parse_command etc.) -/

/-- enum Command from the source (fields are positional: GetPin.pin,
SetPin.pin/.value, Pwm.duty_cycle, Adc.pin). -/
inductive Command where
  | Help : Command
  | Led : Bool → Command
  | GetPin : Nat → Command
  | SetPin : Nat → Bool → Command
  | Pwm : Nat → Command
  | Adc : Nat → Command
  | Temp : Command
  deriving DecidableEq

/-- Numeric value of an ASCII decimal digit character. -/
def digitVal (c : Char) : Nat := c.toNat - 48

/-- Decimal value of a digit string (most significant digit first). -/
def digitsVal (l : List Char) : Nat := l.foldl (fun a c => 10 * a + digitVal c) 0

/-- u8::from_str on a string of decimal digits: the value when it fits in
0..=255, failure on overflow (checked multiply/add in the Rust core impl). -/
def u8FromStr (l : List Char) : Option Nat :=
  if digitsVal l ≤ 255 then some (digitsVal l) else none

/-- fn parse_number (instantiated at T = u8, the only width used):
map_res(recognize(take_while1(is_ascii_digit)), from_str). -/
def parse_number : Parser Nat := map_resP (take_while1P Char.isDigit) u8FromStr

/-- fn parse_led_command: a space, then "on" or "off". -/
def parse_led_command : Parser Command :=
  fun input =>
    match tagP [' '] input with
    | none => none
    | some (input, _) =>
      match altP [valueP true (tagP ['o', 'n']), valueP false (tagP ['o', 'f', 'f'])] input with
      | none => none
      | some (input, v) => some (input, Command.Led v)

/-- fn parse_get_pin_command: a space, then a pin number. -/
def parse_get_pin_command : Parser Command :=
  fun input =>
    match precededP (tagP [' ']) parse_number input with
    | none => none
    | some (input, pin) => some (input, Command.GetPin pin)

/-- fn parse_set_pin_command: a space, a pin number, a space, "high" or "low". -/
def parse_set_pin_command : Parser Command :=
  fun input =>
    match precededP (tagP [' ']) parse_number input with
    | none => none
    | some (input, pin) =>
      match precededP (tagP [' '])
          (altP [valueP true (tagP ['h', 'i', 'g', 'h']), valueP false (tagP ['l', 'o', 'w'])]) input with
      | none => none
      | some (input, v) => some (input, Command.SetPin pin v)

/-- fn parse_pwm_command: a space, then a duty-cycle number. -/
def parse_pwm_command : Parser Command :=
  fun input =>
    match precededP (tagP [' ']) parse_number input with
    | none => none
    | some (input, duty) => some (input, Command.Pwm duty)

/-- fn parse_adc_command: a space, then a channel number. -/
def parse_adc_command : Parser Command :=
  fun input =>
    match precededP (tagP [' ']) parse_number input with
    | none => none
    | some (input, pin) => some (input, Command.Adc pin)

/-- fn parse_command: an alt over the seven keyword tags (help and temp
wrapped in all_consuming), then per-keyword sub-parsers, each wrapped in
all_consuming so the entire line must be consumed.  The source's final
match arm cannot be reached (the alt only yields the seven tags) and is
modelled as none. -/
def parse_command : Parser Command :=
  fun input =>
    match altP [
        all_consumingP (tagP ['h', 'e', 'l', 'p']),
        tagP ['l', 'e', 'd'],
        tagP ['g', 'e', 't'],
        tagP ['s', 'e', 't'],
        tagP ['p', 'w', 'm'],
        tagP ['a', 'd', 'c'],
        all_consumingP (tagP ['t', 'e', 'm', 'p'])] input with
    | none => none
    | some (input, cmd) =>
      if cmd = ['h', 'e', 'l', 'p'] then some (input, Command.Help)
      else if cmd = ['l', 'e', 'd'] then all_consumingP parse_led_command input
      else if cmd = ['g', 'e', 't'] then all_consumingP parse_get_pin_command input
      else if cmd = ['s', 'e', 't'] then all_consumingP parse_set_pin_command input
      else if cmd = ['p', 'w', 'm'] then all_consumingP parse_pwm_command input
      else if cmd = ['a', 'd', 'c'] then all_consumingP parse_adc_command input
      else if cmd = ['t', 'e', 'm', 'p'] then some (input, Command.Temp)
      else none

/-! ### The dynamic pin abstraction (enum AnyPin) -/

/-- enum AnyPin: a pin is in exactly one of two roles.  The DigitalOut
payload is the driven level (the PORT register bit); a DigitalIn pin
carries no level of its own, the sensed external level is supplied at
read time (the PIN register). -/
inductive AnyPin where
  | DigitalIn : AnyPin
  | DigitalOut : Bool → AnyPin
  deriving DecidableEq

/-- AnyPin::as_input: converts an output pin into a floating input pin;
a no-op on inputs (the source returns early). -/
def AnyPin.as_input (p : AnyPin) : AnyPin :=
  match p with
  | AnyPin.DigitalIn => AnyPin.DigitalIn
  | AnyPin.DigitalOut _ => AnyPin.DigitalIn

/-- AnyPin::as_output: converts an input pin into an output pin; a no-op
on outputs.  into_output on avr-hal keeps the PORT bit, which is 0 for a
floating input, so the fresh output drives low (immediately overwritten
by the set_high or set_low that follows every as_output call in main). -/
def AnyPin.as_output (p : AnyPin) : AnyPin :=
  match p with
  | AnyPin.DigitalIn => AnyPin.DigitalOut false
  | AnyPin.DigitalOut d => AnyPin.DigitalOut d

/-- AnyPin::is_high: the driven level in output role (is_set_high reads
PORT), the sensed external level ext in input role (is_high reads PIN). -/
def AnyPin.is_high (p : AnyPin) (ext : Bool) : Bool :=
  match p with
  | AnyPin.DigitalIn => ext
  | AnyPin.DigitalOut d => d

/-- AnyPin::set_high: as_output, then drive high; the source's branch for
a pin that is still an input after as_output raises the unreachable
diagnostic, modelled as none. -/
def AnyPin.set_high (p : AnyPin) : Option AnyPin :=
  match p.as_output with
  | AnyPin.DigitalOut _ => some (AnyPin.DigitalOut true)
  | AnyPin.DigitalIn => none

/-- AnyPin::set_low: as_output, then drive low; the input branch after
as_output is the source's unreachable diagnostic, modelled as none. -/
def AnyPin.set_low (p : AnyPin) : Option AnyPin :=
  match p.as_output with
  | AnyPin.DigitalOut _ => some (AnyPin.DigitalOut false)
  | AnyPin.DigitalIn => none

/-! ### Output formatting (ufmt) -/

/-- The ASCII character of one decimal digit. -/
def decChar (n : Nat) : Char :=
  match n with
  | 0 => '0' | 1 => '1' | 2 => '2' | 3 => '3' | 4 => '4'
  | 5 => '5' | 6 => '6' | 7 => '7' | 8 => '8' | _ => '9'

/-- Decimal rendering of a Nat, most significant digit first, no sign,
no leading zeros: the ufmt Display output for the unsigned integers the
program prints. -/
def natRepr (n : Nat) : List Char :=
  if _h : n < 10 then [decChar n]
  else natRepr (n / 10) ++ [decChar (n % 10)]
decreasing_by exact Nat.div_lt_self (by omega) (by omega)

/-- Decimal rendering as a String. -/
def natStr (n : Nat) : String := String.mk (natRepr n)

/-- ufmt Display for bool. -/
def boolStr (b : Bool) : String := if b then "true" else "false"

/-- The ASCII character of one uppercase hexadecimal digit. -/
def hexChar (n : Nat) : Char :=
  match n with
  | 0 => '0' | 1 => '1' | 2 => '2' | 3 => '3' | 4 => '4'
  | 5 => '5' | 6 => '6' | 7 => '7' | 8 => '8' | 9 => '9'
  | 10 => 'A' | 11 => 'B' | 12 => 'C' | 13 => 'D' | 14 => 'E' | _ => 'F'

/-- Uppercase hexadecimal digits of a Nat, most significant first. -/
def hexDigits (n : Nat) : List Char :=
  if _h : n < 16 then [hexChar n]
  else hexDigits (n / 16) ++ [hexChar (n % 16)]
decreasing_by exact Nat.div_lt_self (by omega) (by omega)

/-- The 04X format used by the temp response: uppercase hex, left-padded
with zeros to a minimum width of 4. -/
def hex4 (n : Nat) : List Char :=
  List.replicate (4 - (hexDigits n).length) '0' ++ hexDigits n

/-- Numeric value of one uppercase hexadecimal digit character. -/
def hexVal (c : Char) : Nat :=
  match c with
  | '0' => 0 | '1' => 1 | '2' => 2 | '3' => 3 | '4' => 4
  | '5' => 5 | '6' => 6 | '7' => 7 | '8' => 8 | '9' => 9
  | 'A' => 10 | 'B' => 11 | 'C' => 12 | 'D' => 13 | 'E' => 14 | 'F' => 15
  | _ => 0

/-- Value denoted by a string of uppercase hexadecimal digits. -/
def decodeHex (l : List Char) : Nat := l.foldl (fun a c => 16 * a + hexVal c) 0

/-! ### Response lines (the uwriteln calls in main) -/

/-- const HELP. -/
def HELP : String :=
  "commands: help, led on|off, get <pin>, set <pin> high|low, pwm <0-255>, adc <0-5>, temp"

/-- The get response line. -/
def dLine (pin : Nat) (v : Bool) : String := "d" ++ natStr pin ++ ": " ++ boolStr v

/-- The adc response line. -/
def aLine (ch : Nat) (v : Nat) : String := "a" ++ natStr ch ++ ": " ++ natStr v

/-- The unknown digital pin message. -/
def unknownPinLine (pin : Nat) : String :=
  "unknown pin: " ++ natStr pin ++ ", valid pins are 2-4, 6-12"

/-- The unknown ADC channel message (the source reuses the wording
"unknown pin" with the channel range 0-5). -/
def unknownChannelLine (ch : Nat) : String :=
  "unknown pin: " ++ natStr ch ++ ", valid pins are 0-5"

/-- The temp response line. -/
def tempLine (v : Nat) : String := "temp: 0x" ++ String.mk (hex4 v)

/-- The parse failure report. -/
def invalidLine (input : List Char) : String := "invalid command: " ++ String.mk input

/-! ### Device state and environment -/

/-- The PWM driver: set_duty stores the duty cycle, enable turns the
output on. -/
structure PwmState where
  duty : Nat
  enabled : Bool
  deriving DecidableEq

/-- The mutable state owned by the dispatch loop: the LED pin d13, the
PWM output d5, and the ten dynamic pins d2-d4, d6-d12 (indexed by pin
number; indices outside the ten are never reached by dispatch). -/
structure St where
  led : Bool
  pwm : PwmState
  pins : Nat → AnyPin

/-- The hardware environment read by the loop: the externally sensed
level of each digital pin, the ADC sample per channel, and the raw
temperature sensor reading. -/
structure Env where
  ext : Nat → Bool
  adcVal : Nat → Nat
  tempVal : Nat

/-- Replaces one dynamic pin in the registry. -/
def updatePin (st : St) (pin : Nat) (p : AnyPin) : St :=
  { st with pins := fun n => if n = pin then p else st.pins n }

/-- The two set arms per pin: (pin, true) calls set_high, (pin, false)
calls set_low. -/
def setLevel (p : AnyPin) (v : Bool) : Option AnyPin :=
  if v then p.set_high else p.set_low

/-- Commits the result of set_high or set_low to the state; none marks
the source's unreachable diagnostic. -/
def applySet (st : St) (pin : Nat) (r : Option AnyPin) : Option (St × List String) :=
  match r with
  | some p => some (updatePin st pin p, [])
  | none => none

/-- The ten get match arms of main: reads the selected pin, or falls
through to the unknown-pin arm. -/
def getPinValue (env : Env) (st : St) (pin : Nat) : Option Bool :=
  if pin = 2 then some ((st.pins 2).is_high (env.ext 2))
  else if pin = 3 then some ((st.pins 3).is_high (env.ext 3))
  else if pin = 4 then some ((st.pins 4).is_high (env.ext 4))
  else if pin = 6 then some ((st.pins 6).is_high (env.ext 6))
  else if pin = 7 then some ((st.pins 7).is_high (env.ext 7))
  else if pin = 8 then some ((st.pins 8).is_high (env.ext 8))
  else if pin = 9 then some ((st.pins 9).is_high (env.ext 9))
  else if pin = 10 then some ((st.pins 10).is_high (env.ext 10))
  else if pin = 11 then some ((st.pins 11).is_high (env.ext 11))
  else if pin = 12 then some ((st.pins 12).is_high (env.ext 12))
  else none

/-- The six adc match arms of main: samples the selected channel, or
falls through to the unknown-channel arm. -/
def adcValue (env : Env) (ch : Nat) : Option Nat :=
  if ch = 0 then some (env.adcVal 0)
  else if ch = 1 then some (env.adcVal 1)
  else if ch = 2 then some (env.adcVal 2)
  else if ch = 3 then some (env.adcVal 3)
  else if ch = 4 then some (env.adcVal 4)
  else if ch = 5 then some (env.adcVal 5)
  else none

/-- One dispatch of an input line, mirroring the match in main's loop:
parses the line and performs the selected arm.  The returned list holds
the response lines this iteration writes (uwriteln calls, without the
trailing newline; the "> " prompt is written before every read and is
not part of this list).  none marks the unreachable diagnostic inside
set_high or set_low, shown never to occur. -/
def dispatch (env : Env) (st : St) (input : List Char) : Option (St × List String) :=
  match parse_command input with
  | some (_, Command.Help) => some (st, [HELP])
  | some (_, Command.Led b) => some ({ st with led := b }, [])
  | some (_, Command.GetPin pin) =>
    match getPinValue env st pin with
    | some v => some (st, [dLine pin v])
    | none => some (st, [unknownPinLine pin])
  | some (_, Command.SetPin pin v) =>
    if pin = 2 then applySet st 2 (setLevel (st.pins 2) v)
    else if pin = 3 then applySet st 3 (setLevel (st.pins 3) v)
    else if pin = 4 then applySet st 4 (setLevel (st.pins 4) v)
    else if pin = 6 then applySet st 6 (setLevel (st.pins 6) v)
    else if pin = 7 then applySet st 7 (setLevel (st.pins 7) v)
    else if pin = 8 then applySet st 8 (setLevel (st.pins 8) v)
    else if pin = 9 then applySet st 9 (setLevel (st.pins 9) v)
    else if pin = 10 then applySet st 10 (setLevel (st.pins 10) v)
    else if pin = 11 then applySet st 11 (setLevel (st.pins 11) v)
    else if pin = 12 then applySet st 12 (setLevel (st.pins 12) v)
    else some (st, [unknownPinLine pin])
  | some (_, Command.Pwm duty) => some ({ st with pwm := { duty := duty, enabled := true } }, [])
  | some (_, Command.Adc ch) =>
    match adcValue env ch with
    | some v => some (st, [aLine ch v])
    | none => some (st, [unknownChannelLine ch])
  | some (_, Command.Temp) => some (st, [tempLine env.tempVal])
  | none => some (st, [invalidLine input, HELP])

/-! ### The line reader (fn read_line) and the loop -/

/-- Bytes a pushed (byte as char) occupies inside the heapless
String of 32 bytes: one UTF-8 byte for an ASCII byte, two for
bytes 128-255 (they become chars U+0080 to U+00FF). -/
def byteSizeInBuf (b : Nat) : Nat := if b < 128 then 1 else 2

/-- The read loop of fn read_line: consumes bytes until a newline (kept
out of the result) or until a push no longer fits the 32-byte buffer
(error; the failing byte is consumed, everything after it stays in the
stream).  used tracks the bytes occupied so far.  On an exhausted stream
the blocking read never returns, modelled as none. -/
def read_lineAux (used : Nat) (buf : List Nat) : List Nat → Option (Except Unit (List Nat) × List Nat)
  | [] => none
  | b :: rest =>
    if b = 10 then some (Except.ok buf, rest)
    else if used + byteSizeInBuf b ≤ 32 then read_lineAux (used + byteSizeInBuf b) (buf ++ [b]) rest
    else some (Except.error (), rest)

/-- fn read_line on a byte stream: the line read (as raw bytes, newline
excluded) or the buffer overflow error, plus the unconsumed stream. -/
def read_line (stream : List Nat) : Option (Except Unit (List Nat) × List Nat) :=
  read_lineAux 0 [] stream

/-- One iteration of main's loop: prompt (written before the read, not
part of the response list), read a line, on read failure continue with
no output, otherwise dispatch the line (bytes become chars exactly as
pushed by read_line). -/
def loopStep (env : Env) (st : St) (stream : List Nat) : Option (St × List String × List Nat) :=
  match read_line stream with
  | none => none
  | some (Except.error _, rest) => some (st, [], rest)
  | some (Except.ok bytes, rest) =>
    match dispatch env st (bytes.map Char.ofNat) with
    | none => none
    | some (st2, out) => some (st2, out, rest)

/-- n iterations of main's loop, concatenating the response lines. -/
def run (env : Env) : Nat → St → List Nat → Option (St × List String × List Nat)
  | 0, st, stream => some (st, [], stream)
  | n + 1, st, stream =>
    match loopStep env st stream with
    | none => none
    | some (st2, out, rest) =>
      match run env n st2 rest with
      | none => none
      | some (st3, out2, rest2) => some (st3, out ++ out2, rest2)

/-! ### Command line texts and concrete start state -/

/-- The text get pin. -/
def getLine (pin : Nat) : List Char := 'g' :: 'e' :: 't' :: ' ' :: natRepr pin

/-- The text set pin high (level true) or set pin low (level false). -/
def setLine (pin : Nat) (level : Bool) : List Char :=
  's' :: 'e' :: 't' :: ' ' ::
    (natRepr pin ++ (if level then [' ', 'h', 'i', 'g', 'h'] else [' ', 'l', 'o', 'w']))

/-- The text adc ch. -/
def adcLine (ch : Nat) : List Char := 'a' :: 'd' :: 'c' :: ' ' :: natRepr ch

/-- The text pwm duty. -/
def pwmLine (duty : Nat) : List Char := 'p' :: 'w' :: 'm' :: ' ' :: natRepr duty

/-- The supported digital pin numbers. -/
def validPins : List Nat := [2, 3, 4, 6, 7, 8, 9, 10, 11, 12]

/-- The state right after device bring-up: LED off, PWM idle, every
dynamic pin in the input role. -/
def st0 : St :=
  { led := false, pwm := { duty := 0, enabled := false }, pins := fun _ => AnyPin.DigitalIn }

/-- A concrete quiet environment (all pins sense low, ADC reads 0, the
raw temperature reading is 0x0130). -/
def env0 : Env := { ext := fun _ => false, adcVal := fun _ => 0, tempVal := 304 }

/-- Shape of a successful parse: the consumed prefix of the input exists
and contains no carriage return (no grammar token contains one). -/
def ConsumedNoCR {α : Type} (p : Parser α) : Prop :=
  ∀ input r x, p input = some (r, x) → ∃ pre, input = pre ++ r ∧ ∀ c ∈ pre, c ≠ '\r'

/-! ### Foundational lemmas about the combinators -/

theorem dropPre_self_append (t r : List Char) : dropPre t (t ++ r) = some r := by
  induction t with
  | nil => rfl
  | cons c t ih => simp [dropPre, ih]

theorem dropPre_eq_some : ∀ (t input r : List Char), dropPre t input = some r → input = t ++ r := by
  intro t
  induction t with
  | nil =>
    intro input r h
    simp only [dropPre, Option.some.injEq] at h
    simp [h]
  | cons c t ih =>
    intro input r h
    cases input with
    | nil => simp [dropPre] at h
    | cons b bs =>
      simp only [dropPre] at h
      by_cases hcb : c = b
      · rw [if_pos hcb] at h
        subst hcb
        have := ih bs r h
        simp [this]
      · rw [if_neg hcb] at h
        exact absurd h (by simp)

theorem tagP_self_append (t r : List Char) : tagP t (t ++ r) = some (r, t) := by
  simp [tagP, dropPre_self_append]

theorem tagP_self_cons (c : Char) (r : List Char) : tagP [c] (c :: r) = some (r, [c]) :=
  tagP_self_append [c] r

theorem tagP_eq_some {t input r m : List Char} (h : tagP t input = some (r, m)) :
    m = t ∧ input = t ++ r := by
  unfold tagP at h
  cases hd : dropPre t input with
  | none => rw [hd] at h; simp at h
  | some r' =>
    rw [hd] at h
    simp only [Option.map_some', Option.some.injEq, Prod.mk.injEq] at h
    obtain ⟨h1, h2⟩ := h
    refine ⟨h2.symm, ?_⟩
    rw [← h1]
    exact dropPre_eq_some t input r' hd

theorem all_consumingP_eq_some {α : Type} {p : Parser α} {input r x}
    (h : all_consumingP p input = some (r, x)) : r = [] ∧ p input = some ([], x) := by
  unfold all_consumingP at h
  cases hp : p input with
  | none => rw [hp] at h; simp at h
  | some v =>
    obtain ⟨rest, y⟩ := v
    rw [hp] at h
    dsimp only at h
    by_cases hr : rest = []
    · rw [if_pos hr] at h
      simp only [Option.some.injEq, Prod.mk.injEq] at h
      obtain ⟨h1, h2⟩ := h
      subst hr
      exact ⟨h1.symm, by rw [h2]⟩
    · rw [if_neg hr] at h
      exact absurd h (by simp)

theorem altP_mem {α : Type} :
    ∀ (ps : List (Parser α)) (input : List Char) (v : List Char × α),
      altP ps input = some v → ∃ p ∈ ps, p input = some v := by
  intro ps
  induction ps with
  | nil => intro input v h; simp [altP] at h
  | cons p ps ih =>
    intro input v h
    simp only [altP] at h
    cases hp : p input with
    | some r =>
      rw [hp] at h
      dsimp only at h
      exact ⟨p, by simp, by rw [hp, h]⟩
    | none =>
      rw [hp] at h
      dsimp only at h
      obtain ⟨q, hq, hqv⟩ := ih input v h
      exact ⟨q, by simp [hq], hqv⟩

theorem takeWhile_dropWhile_append (p : Char → Bool) :
    ∀ (xs ys : List Char), (∀ c ∈ xs, p c = true) → (∀ c cs, ys = c :: cs → p c = false) →
      (xs ++ ys).takeWhile p = xs ∧ (xs ++ ys).dropWhile p = ys := by
  intro xs
  induction xs with
  | nil =>
    intro ys _ hy
    cases ys with
    | nil => simp
    | cons c cs =>
      have := hy c cs rfl
      simp [List.takeWhile_cons, List.dropWhile_cons, this]
  | cons x xs ih =>
    intro ys hx hy
    have hpx : p x = true := hx x (by simp)
    obtain ⟨h1, h2⟩ := ih ys (fun c hc => hx c (by simp [hc])) hy
    simp [List.takeWhile_cons, List.dropWhile_cons, hpx, h1, h2]

theorem take_while1P_append (xs ys : List Char) (hne : xs ≠ [])
    (hx : ∀ c ∈ xs, Char.isDigit c = true)
    (hy : ∀ c cs, ys = c :: cs → Char.isDigit c = false) :
    take_while1P Char.isDigit (xs ++ ys) = some (ys, xs) := by
  obtain ⟨ht, hd⟩ := takeWhile_dropWhile_append Char.isDigit xs ys hx hy
  unfold take_while1P
  rw [ht, hd]
  cases xs with
  | nil => exact absurd rfl hne
  | cons c cs => rfl

/-! ### Decimal rendering and the number parser -/

theorem decChar_isDigit {m : Nat} (h : m < 10) : Char.isDigit (decChar m) = true := by
  interval_cases m <;> decide

theorem digitVal_decChar {m : Nat} (h : m < 10) : digitVal (decChar m) = m := by
  interval_cases m <;> decide

theorem natRepr_ne_nil (n : Nat) : natRepr n ≠ [] := by
  rw [natRepr]
  split <;> simp

theorem natRepr_digits (n : Nat) : ∀ c ∈ natRepr n, Char.isDigit c = true := by
  induction n using Nat.strong_induction_on with
  | _ n ih =>
    rw [natRepr]
    split
    · next h =>
      intro c hc
      simp only [List.mem_singleton] at hc
      subst hc
      exact decChar_isDigit h
    · next h =>
      intro c hc
      rw [List.mem_append] at hc
      cases hc with
      | inl h1 => exact ih (n / 10) (Nat.div_lt_self (by omega) (by omega)) c h1
      | inr h1 =>
        simp only [List.mem_singleton] at h1
        subst h1
        exact decChar_isDigit (Nat.mod_lt n (by omega))

theorem digitsVal_append_singleton (xs : List Char) (c : Char) :
    digitsVal (xs ++ [c]) = 10 * digitsVal xs + digitVal c := by
  unfold digitsVal
  rw [List.foldl_append]
  rfl

theorem digitsVal_natRepr (n : Nat) : digitsVal (natRepr n) = n := by
  induction n using Nat.strong_induction_on with
  | _ n ih =>
    rw [natRepr]
    split
    · next h =>
      unfold digitsVal
      simp [digitVal_decChar h]
    · next h =>
      rw [digitsVal_append_singleton, ih (n / 10) (Nat.div_lt_self (by omega) (by omega)),
        digitVal_decChar (Nat.mod_lt n (by omega))]
      omega

theorem parse_number_append (n : Nat) (ys : List Char)
    (hy : ∀ c cs, ys = c :: cs → Char.isDigit c = false) :
    parse_number (natRepr n ++ ys) = if n ≤ 255 then some (ys, n) else none := by
  unfold parse_number map_resP
  rw [take_while1P_append (natRepr n) ys (natRepr_ne_nil n) (natRepr_digits n) hy]
  dsimp only
  unfold u8FromStr
  rw [digitsVal_natRepr]
  by_cases h : n ≤ 255
  · rw [if_pos h, if_pos h]
  · rw [if_neg h, if_neg h]

theorem parse_number_natRepr (n : Nat) :
    parse_number (natRepr n) = if n ≤ 255 then some ([], n) else none := by
  have := parse_number_append n [] (fun c cs h => List.noConfusion h)
  simpa using this

/-! ### Parsing the concrete command texts -/

theorem parse_command_getLine (pin : Nat) (h : pin ≤ 255) :
    parse_command (getLine pin) = some ([], Command.GetPin pin) := by
  have h0 : parse_command (getLine pin) =
      all_consumingP parse_get_pin_command (' ' :: natRepr pin) := rfl
  rw [h0]
  unfold all_consumingP parse_get_pin_command precededP
  rw [tagP_self_cons ' ' (natRepr pin)]
  dsimp only
  rw [parse_number_natRepr pin, if_pos h]
  rfl

theorem parse_command_adcLine (ch : Nat) (h : ch ≤ 255) :
    parse_command (adcLine ch) = some ([], Command.Adc ch) := by
  have h0 : parse_command (adcLine ch) =
      all_consumingP parse_adc_command (' ' :: natRepr ch) := rfl
  rw [h0]
  unfold all_consumingP parse_adc_command precededP
  rw [tagP_self_cons ' ' (natRepr ch)]
  dsimp only
  rw [parse_number_natRepr ch, if_pos h]
  rfl

theorem parse_command_pwmLine (duty : Nat) :
    parse_command (pwmLine duty) = if duty ≤ 255 then some ([], Command.Pwm duty) else none := by
  have h0 : parse_command (pwmLine duty) =
      all_consumingP parse_pwm_command (' ' :: natRepr duty) := rfl
  rw [h0]
  unfold all_consumingP parse_pwm_command precededP
  rw [tagP_self_cons ' ' (natRepr duty)]
  dsimp only
  rw [parse_number_natRepr duty]
  by_cases h : duty ≤ 255
  · rw [if_pos h, if_pos h]
    rfl
  · rw [if_neg h, if_neg h]

theorem parse_command_setLine (pin : Nat) (level : Bool) (h : pin ≤ 255) :
    parse_command (setLine pin level) = some ([], Command.SetPin pin level) := by
  cases level
  case true =>
    have h0 : parse_command (setLine pin true) =
        all_consumingP parse_set_pin_command
          (' ' :: (natRepr pin ++ [' ', 'h', 'i', 'g', 'h'])) := rfl
    rw [h0]
    unfold all_consumingP parse_set_pin_command
    rw [show precededP (tagP [' ']) parse_number
          (' ' :: (natRepr pin ++ [' ', 'h', 'i', 'g', 'h'])) =
        parse_number (natRepr pin ++ [' ', 'h', 'i', 'g', 'h']) by
      unfold precededP
      rw [tagP_self_cons ' ']]
    rw [parse_number_append pin [' ', 'h', 'i', 'g', 'h']
      (fun c cs hc => by injection hc with hc1 _; rw [← hc1]; decide), if_pos h]
    rfl
  case false =>
    have h0 : parse_command (setLine pin false) =
        all_consumingP parse_set_pin_command
          (' ' :: (natRepr pin ++ [' ', 'l', 'o', 'w'])) := rfl
    rw [h0]
    unfold all_consumingP parse_set_pin_command
    rw [show precededP (tagP [' ']) parse_number
          (' ' :: (natRepr pin ++ [' ', 'l', 'o', 'w'])) =
        parse_number (natRepr pin ++ [' ', 'l', 'o', 'w']) by
      unfold precededP
      rw [tagP_self_cons ' ']]
    rw [parse_number_append pin [' ', 'l', 'o', 'w']
      (fun c cs hc => by injection hc with hc1 _; rw [← hc1]; decide), if_pos h]
    rfl

/-! ### AnyPin and dispatch helpers -/

theorem set_high_eq (p : AnyPin) : p.set_high = some (AnyPin.DigitalOut true) := by
  cases p <;> rfl

theorem set_low_eq (p : AnyPin) : p.set_low = some (AnyPin.DigitalOut false) := by
  cases p <;> rfl

theorem setLevel_eq (p : AnyPin) (v : Bool) : setLevel p v = some (AnyPin.DigitalOut v) := by
  cases v <;> simp [setLevel, set_high_eq, set_low_eq]

theorem dispatch_parse_fail {env : Env} {st : St} {input : List Char}
    (h : parse_command input = none) :
    dispatch env st input = some (st, [invalidLine input, HELP]) := by
  unfold dispatch
  rw [h]

/-! ### No grammar token contains a carriage return -/

theorem consumedNoCR_tagP (t : List Char) (ht : ∀ c ∈ t, c ≠ '\r') : ConsumedNoCR (tagP t) := by
  intro input r x h
  obtain ⟨_, hi⟩ := tagP_eq_some h
  exact ⟨t, hi, ht⟩

theorem consumedNoCR_take_while1_digit : ConsumedNoCR (take_while1P Char.isDigit) := by
  intro input r x h
  unfold take_while1P at h
  cases htw : input.takeWhile Char.isDigit with
  | nil => rw [htw] at h; simp at h
  | cons c cs =>
    rw [htw] at h
    dsimp only at h
    simp only [Option.some.injEq, Prod.mk.injEq] at h
    obtain ⟨h1, _⟩ := h
    refine ⟨c :: cs, ?_, ?_⟩
    · rw [← htw, ← h1]
      exact (List.takeWhile_append_dropWhile Char.isDigit input).symm
    · intro d hd
      have hdig : Char.isDigit d = true := by
        apply List.mem_takeWhile_imp (l := input)
        rw [htw]
        exact hd
      intro hcr
      rw [hcr] at hdig
      exact absurd hdig (by decide)

theorem consumedNoCR_map_resP {α β : Type} {p : Parser α} (hp : ConsumedNoCR p)
    (f : α → Option β) : ConsumedNoCR (map_resP p f) := by
  intro input r x h
  unfold map_resP at h
  cases hq : p input with
  | none => rw [hq] at h; simp at h
  | some v =>
    obtain ⟨rest, y⟩ := v
    rw [hq] at h
    dsimp only at h
    cases hf : f y with
    | none => rw [hf] at h; simp at h
    | some z =>
      rw [hf] at h
      simp only [Option.some.injEq, Prod.mk.injEq] at h
      obtain ⟨h1, _⟩ := h
      obtain ⟨pre, hpre, hcr⟩ := hp input rest y hq
      exact ⟨pre, by rw [← h1]; exact hpre, hcr⟩

theorem consumedNoCR_valueP {α β : Type} {p : Parser β} (hp : ConsumedNoCR p) (v : α) :
    ConsumedNoCR (valueP v p) := by
  intro input r x h
  unfold valueP at h
  cases hq : p input with
  | none => rw [hq] at h; simp at h
  | some w =>
    obtain ⟨rest, y⟩ := w
    rw [hq] at h
    dsimp only at h
    simp only [Option.some.injEq, Prod.mk.injEq] at h
    obtain ⟨h1, _⟩ := h
    obtain ⟨pre, hpre, hcr⟩ := hp input rest y hq
    exact ⟨pre, by rw [← h1]; exact hpre, hcr⟩

theorem consumedNoCR_precededP {α β : Type} {p : Parser α} {q : Parser β}
    (hp : ConsumedNoCR p) (hq : ConsumedNoCR q) : ConsumedNoCR (precededP p q) := by
  intro input r x h
  unfold precededP at h
  cases he : p input with
  | none => rw [he] at h; simp at h
  | some v =>
    obtain ⟨rest, y⟩ := v
    rw [he] at h
    dsimp only at h
    obtain ⟨pre1, hp1, hc1⟩ := hp input rest y he
    obtain ⟨pre2, hp2, hc2⟩ := hq rest r x h
    refine ⟨pre1 ++ pre2, ?_, ?_⟩
    · rw [hp1, hp2, List.append_assoc]
    · intro c hc
      rw [List.mem_append] at hc
      cases hc with
      | inl hc => exact hc1 c hc
      | inr hc => exact hc2 c hc

theorem consumedNoCR_altP {α : Type} (ps : List (Parser α))
    (hps : ∀ p ∈ ps, ConsumedNoCR p) : ConsumedNoCR (altP ps) := by
  intro input r x h
  obtain ⟨p, hmem, hpx⟩ := altP_mem ps input (r, x) h
  exact hps p hmem input r x hpx

theorem consumedNoCR_numArg : ConsumedNoCR (precededP (tagP [' ']) parse_number) :=
  consumedNoCR_precededP (consumedNoCR_tagP [' '] (by decide))
    (consumedNoCR_map_resP consumedNoCR_take_while1_digit u8FromStr)

theorem consumedNoCR_parse_led : ConsumedNoCR parse_led_command := by
  intro input r x h
  unfold parse_led_command at h
  cases h1 : tagP [' '] input with
  | none => rw [h1] at h; simp at h
  | some v1 =>
    obtain ⟨i1, m1⟩ := v1
    rw [h1] at h
    dsimp only at h
    cases h2 : altP [valueP true (tagP ['o', 'n']), valueP false (tagP ['o', 'f', 'f'])] i1 with
    | none => rw [h2] at h; simp at h
    | some v2 =>
      obtain ⟨i2, b⟩ := v2
      rw [h2] at h
      dsimp only at h
      simp only [Option.some.injEq, Prod.mk.injEq] at h
      obtain ⟨hr, _⟩ := h
      obtain ⟨pre1, hp1, hc1⟩ := consumedNoCR_tagP [' '] (by decide) input i1 m1 h1
      have halt : ConsumedNoCR
          (altP [valueP true (tagP ['o', 'n']), valueP false (tagP ['o', 'f', 'f'])]) := by
        apply consumedNoCR_altP
        intro p hp
        simp only [List.mem_cons, List.not_mem_nil, or_false] at hp
        rcases hp with rfl | rfl
        · exact consumedNoCR_valueP (consumedNoCR_tagP _ (by decide)) _
        · exact consumedNoCR_valueP (consumedNoCR_tagP _ (by decide)) _
      obtain ⟨pre2, hp2, hc2⟩ := halt i1 i2 b h2
      refine ⟨pre1 ++ pre2, ?_, ?_⟩
      · rw [hp1, hp2, List.append_assoc, hr]
      · intro c hc
        rw [List.mem_append] at hc
        cases hc with
        | inl hc => exact hc1 c hc
        | inr hc => exact hc2 c hc

theorem consumedNoCR_parse_get : ConsumedNoCR parse_get_pin_command := by
  intro input r x h
  unfold parse_get_pin_command at h
  cases h1 : precededP (tagP [' ']) parse_number input with
  | none => rw [h1] at h; simp at h
  | some v =>
    obtain ⟨i, n⟩ := v
    rw [h1] at h
    dsimp only at h
    simp only [Option.some.injEq, Prod.mk.injEq] at h
    obtain ⟨hr, _⟩ := h
    obtain ⟨pre, hp, hc⟩ := consumedNoCR_numArg input i n h1
    exact ⟨pre, by rw [← hr]; exact hp, hc⟩

theorem consumedNoCR_parse_pwm : ConsumedNoCR parse_pwm_command := by
  intro input r x h
  unfold parse_pwm_command at h
  cases h1 : precededP (tagP [' ']) parse_number input with
  | none => rw [h1] at h; simp at h
  | some v =>
    obtain ⟨i, n⟩ := v
    rw [h1] at h
    dsimp only at h
    simp only [Option.some.injEq, Prod.mk.injEq] at h
    obtain ⟨hr, _⟩ := h
    obtain ⟨pre, hp, hc⟩ := consumedNoCR_numArg input i n h1
    exact ⟨pre, by rw [← hr]; exact hp, hc⟩

theorem consumedNoCR_parse_adc : ConsumedNoCR parse_adc_command := by
  intro input r x h
  unfold parse_adc_command at h
  cases h1 : precededP (tagP [' ']) parse_number input with
  | none => rw [h1] at h; simp at h
  | some v =>
    obtain ⟨i, n⟩ := v
    rw [h1] at h
    dsimp only at h
    simp only [Option.some.injEq, Prod.mk.injEq] at h
    obtain ⟨hr, _⟩ := h
    obtain ⟨pre, hp, hc⟩ := consumedNoCR_numArg input i n h1
    exact ⟨pre, by rw [← hr]; exact hp, hc⟩

theorem consumedNoCR_parse_set : ConsumedNoCR parse_set_pin_command := by
  intro input r x h
  unfold parse_set_pin_command at h
  cases h1 : precededP (tagP [' ']) parse_number input with
  | none => rw [h1] at h; simp at h
  | some v1 =>
    obtain ⟨i1, n⟩ := v1
    rw [h1] at h
    dsimp only at h
    cases h2 : precededP (tagP [' '])
        (altP [valueP true (tagP ['h', 'i', 'g', 'h']), valueP false (tagP ['l', 'o', 'w'])]) i1 with
    | none => rw [h2] at h; simp at h
    | some v2 =>
      obtain ⟨i2, b⟩ := v2
      rw [h2] at h
      dsimp only at h
      simp only [Option.some.injEq, Prod.mk.injEq] at h
      obtain ⟨hr, _⟩ := h
      obtain ⟨pre1, hp1, hc1⟩ := consumedNoCR_numArg input i1 n h1
      have hlevel : ConsumedNoCR (precededP (tagP [' '])
          (altP [valueP true (tagP ['h', 'i', 'g', 'h']), valueP false (tagP ['l', 'o', 'w'])])) := by
        apply consumedNoCR_precededP (consumedNoCR_tagP [' '] (by decide))
        apply consumedNoCR_altP
        intro p hp
        simp only [List.mem_cons, List.not_mem_nil, or_false] at hp
        rcases hp with rfl | rfl
        · exact consumedNoCR_valueP (consumedNoCR_tagP _ (by decide)) _
        · exact consumedNoCR_valueP (consumedNoCR_tagP _ (by decide)) _
      obtain ⟨pre2, hp2, hc2⟩ := hlevel i1 i2 b h2
      refine ⟨pre1 ++ pre2, ?_, ?_⟩
      · rw [hp1, hp2, List.append_assoc, hr]
      · intro c hc
        rw [List.mem_append] at hc
        cases hc with
        | inl hc => exact hc1 c hc
        | inr hc => exact hc2 c hc

theorem noCR_append {t rest : List Char} (ht : ∀ c ∈ t, c ≠ '\r')
    (hr : ∀ c ∈ rest, c ≠ '\r') : ∀ c ∈ t ++ rest, c ≠ '\r' := by
  intro c hc
  rw [List.mem_append] at hc
  cases hc with
  | inl hc => exact ht c hc
  | inr hc => exact hr c hc

theorem noCR_of_consumed {α : Type} {p : Parser α} (hp : ConsumedNoCR p)
    {i : List Char} {x : α} (h : p i = some ([], x)) : ∀ c ∈ i, c ≠ '\r' := by
  obtain ⟨pre, hpre, hc⟩ := hp i [] x h
  intro c hcm
  rw [hpre, List.append_nil] at hcm
  exact hc c hcm

/-- Every successful parse consumes the entire line, and no successfully
parsed line contains a carriage return. -/
theorem parse_command_shape (input r : List Char) (c : Command)
    (h : parse_command input = some (r, c)) :
    r = [] ∧ ∀ ch ∈ input, ch ≠ '\r' := by
  unfold parse_command at h
  cases halt : altP [
      all_consumingP (tagP ['h', 'e', 'l', 'p']),
      tagP ['l', 'e', 'd'],
      tagP ['g', 'e', 't'],
      tagP ['s', 'e', 't'],
      tagP ['p', 'w', 'm'],
      tagP ['a', 'd', 'c'],
      all_consumingP (tagP ['t', 'e', 'm', 'p'])] input with
  | none => rw [halt] at h; simp at h
  | some v =>
    obtain ⟨i1, cmd⟩ := v
    rw [halt] at h
    dsimp only at h
    obtain ⟨p, hmem, hp⟩ := altP_mem _ input (i1, cmd) halt
    simp only [List.mem_cons, List.not_mem_nil, or_false] at hmem
    rcases hmem with rfl | rfl | rfl | rfl | rfl | rfl | rfl
    · obtain ⟨hi1, htag⟩ := all_consumingP_eq_some hp
      obtain ⟨hcmd, hinput⟩ := tagP_eq_some htag
      subst hi1 hcmd hinput
      rw [if_pos rfl] at h
      simp only [Option.some.injEq, Prod.mk.injEq] at h
      exact ⟨h.1.symm, by decide⟩
    · obtain ⟨hcmd, hinput⟩ := tagP_eq_some hp
      subst hcmd hinput
      rw [if_neg (by decide), if_pos rfl] at h
      obtain ⟨hr, hsub⟩ := all_consumingP_eq_some h
      exact ⟨hr, noCR_append (by decide) (noCR_of_consumed consumedNoCR_parse_led hsub)⟩
    · obtain ⟨hcmd, hinput⟩ := tagP_eq_some hp
      subst hcmd hinput
      rw [if_neg (by decide), if_neg (by decide), if_pos rfl] at h
      obtain ⟨hr, hsub⟩ := all_consumingP_eq_some h
      exact ⟨hr, noCR_append (by decide) (noCR_of_consumed consumedNoCR_parse_get hsub)⟩
    · obtain ⟨hcmd, hinput⟩ := tagP_eq_some hp
      subst hcmd hinput
      rw [if_neg (by decide), if_neg (by decide), if_neg (by decide), if_pos rfl] at h
      obtain ⟨hr, hsub⟩ := all_consumingP_eq_some h
      exact ⟨hr, noCR_append (by decide) (noCR_of_consumed consumedNoCR_parse_set hsub)⟩
    · obtain ⟨hcmd, hinput⟩ := tagP_eq_some hp
      subst hcmd hinput
      rw [if_neg (by decide), if_neg (by decide), if_neg (by decide), if_neg (by decide),
        if_pos rfl] at h
      obtain ⟨hr, hsub⟩ := all_consumingP_eq_some h
      exact ⟨hr, noCR_append (by decide) (noCR_of_consumed consumedNoCR_parse_pwm hsub)⟩
    · obtain ⟨hcmd, hinput⟩ := tagP_eq_some hp
      subst hcmd hinput
      rw [if_neg (by decide), if_neg (by decide), if_neg (by decide), if_neg (by decide),
        if_neg (by decide), if_pos rfl] at h
      obtain ⟨hr, hsub⟩ := all_consumingP_eq_some h
      exact ⟨hr, noCR_append (by decide) (noCR_of_consumed consumedNoCR_parse_adc hsub)⟩
    · obtain ⟨hi1, htag⟩ := all_consumingP_eq_some hp
      obtain ⟨hcmd, hinput⟩ := tagP_eq_some htag
      subst hi1 hcmd hinput
      rw [if_neg (by decide), if_neg (by decide), if_neg (by decide), if_neg (by decide),
        if_neg (by decide), if_neg (by decide), if_pos rfl] at h
      simp only [Option.some.injEq, Prod.mk.injEq] at h
      exact ⟨h.1.symm, by decide⟩

/-- A line containing a carriage return never parses. -/
theorem parse_command_cr_fails (input : List Char) (hcr : '\r' ∈ input) :
    parse_command input = none := by
  cases hp : parse_command input with
  | none => rfl
  | some v =>
    obtain ⟨r, c⟩ := v
    obtain ⟨_, hnc⟩ := parse_command_shape input r c hp
    exact absurd rfl (hnc '\r' hcr)

/-! ### Line reader lemmas -/

theorem read_lineAux_ok : ∀ (pre : List Nat) (used : Nat) (buf rest : List Nat),
    (∀ b ∈ pre, b ≠ 10) → used + (pre.map byteSizeInBuf).sum ≤ 32 →
    read_lineAux used buf (pre ++ 10 :: rest) = some (Except.ok (buf ++ pre), rest) := by
  intro pre
  induction pre with
  | nil =>
    intro used buf rest _ _
    simp [read_lineAux]
  | cons b pre ih =>
    intro used buf rest hne hsz
    have hb : b ≠ 10 := hne b (by simp)
    rw [List.map_cons, List.sum_cons] at hsz
    have h1 : used + byteSizeInBuf b ≤ 32 := by omega
    simp only [List.cons_append, read_lineAux]
    rw [if_neg hb, if_pos h1]
    simp only [List.append_eq]
    rw [ih (used + byteSizeInBuf b) (buf ++ [b]) rest
      (fun x hx => hne x (by simp [hx])) (by omega)]
    rw [List.append_assoc]
    rfl

theorem read_lineAux_overflow : ∀ (k used : Nat) (buf s : List Nat),
    1 ≤ k → used + k = 33 → k ≤ s.length → (∀ b ∈ s.take k, b ≠ 10 ∧ b < 128) →
    read_lineAux used buf s = some (Except.error (), s.drop k) := by
  intro k
  induction k with
  | zero =>
    intro used buf s h1 _ _ _
    omega
  | succ k ih =>
    intro used buf s _ hsum hlen hbytes
    cases s with
    | nil => simp at hlen
    | cons b s' =>
      have hb := hbytes b (by simp)
      have hsz : byteSizeInBuf b = 1 := by
        unfold byteSizeInBuf
        rw [if_pos hb.2]
      simp only [read_lineAux]
      rw [if_neg hb.1]
      by_cases hk : k = 0
      · subst hk
        have hno : ¬ (used + byteSizeInBuf b ≤ 32) := by omega
        rw [if_neg hno]
        rfl
      · have hyes : used + byteSizeInBuf b ≤ 32 := by omega
        rw [if_pos hyes]
        rw [ih (used + byteSizeInBuf b) (buf ++ [b]) s' (by omega) (by omega)
          (by simp at hlen; omega)
          (fun x hx => hbytes x (by rw [List.take_succ_cons]; exact List.mem_cons_of_mem b hx))]
        rfl

/-- On an overlong ASCII line the reader fails with the overflow error
after consuming exactly 33 bytes; the rest of the stream is untouched. -/
theorem read_line_overflow (stream : List Nat) (hlen : 33 ≤ stream.length)
    (hbytes : ∀ b ∈ stream.take 33, b ≠ 10 ∧ b < 128) :
    read_line stream = some (Except.error (), stream.drop 33) :=
  read_lineAux_overflow 33 0 [] stream (by omega) (by omega) hlen hbytes

/-! ### Hexadecimal formatting lemmas -/

theorem hexChar_mem {m : Nat} (h : m < 16) :
    hexChar m ∈ (['0', '1', '2', '3', '4', '5', '6', '7', '8', '9',
      'A', 'B', 'C', 'D', 'E', 'F'] : List Char) := by
  interval_cases m <;> decide

theorem hexVal_hexChar {m : Nat} (h : m < 16) : hexVal (hexChar m) = m := by
  interval_cases m <;> decide

theorem hexDigits_length_pos (n : Nat) : 1 ≤ (hexDigits n).length := by
  rw [hexDigits]
  split <;> simp

theorem hexDigits_length_le : ∀ (k n : Nat), 1 ≤ k → n < 16 ^ k → (hexDigits n).length ≤ k := by
  intro k
  induction k with
  | zero => intro n h; omega
  | succ k ih =>
    intro n _ h
    rw [hexDigits]
    split
    · simp
    · next hge =>
      push_neg at hge
      have hk1 : 1 ≤ k := by
        rcases Nat.eq_zero_or_pos k with hk0 | hk0
        · subst hk0
          norm_num at h
          omega
        · exact hk0
      have hdiv : n / 16 < 16 ^ k := by
        rw [Nat.div_lt_iff_lt_mul (by omega : 0 < 16)]
        rw [pow_succ] at h
        omega
      have := ih (n / 16) hk1 hdiv
      rw [List.length_append, List.length_singleton]
      omega

theorem hex4_length {n : Nat} (h : n < 65536) : (hex4 n).length = 4 := by
  have h4 : (hexDigits n).length ≤ 4 := hexDigits_length_le 4 n (by omega) (by norm_num [h])
  have h1 := hexDigits_length_pos n
  unfold hex4
  rw [List.length_append, List.length_replicate]
  omega

theorem hexDigits_mem (n : Nat) : ∀ c ∈ hexDigits n,
    c ∈ (['0', '1', '2', '3', '4', '5', '6', '7', '8', '9',
      'A', 'B', 'C', 'D', 'E', 'F'] : List Char) := by
  induction n using Nat.strong_induction_on with
  | _ n ih =>
    rw [hexDigits]
    split
    · next h =>
      intro c hc
      simp only [List.mem_singleton] at hc
      subst hc
      exact hexChar_mem h
    · next h =>
      intro c hc
      rw [List.mem_append] at hc
      cases hc with
      | inl h1 => exact ih (n / 16) (Nat.div_lt_self (by omega) (by omega)) c h1
      | inr h1 =>
        simp only [List.mem_singleton] at h1
        subst h1
        exact hexChar_mem (Nat.mod_lt n (by omega))

theorem hex4_mem {n : Nat} : ∀ c ∈ hex4 n,
    c ∈ (['0', '1', '2', '3', '4', '5', '6', '7', '8', '9',
      'A', 'B', 'C', 'D', 'E', 'F'] : List Char) := by
  intro c hc
  unfold hex4 at hc
  rw [List.mem_append] at hc
  cases hc with
  | inl h1 =>
    have := List.eq_of_mem_replicate h1
    subst this
    decide
  | inr h1 => exact hexDigits_mem n c h1

theorem decodeHex_append_singleton (xs : List Char) (c : Char) :
    decodeHex (xs ++ [c]) = 16 * decodeHex xs + hexVal c := by
  unfold decodeHex
  rw [List.foldl_append]
  rfl

theorem decodeHex_hexDigits (n : Nat) : decodeHex (hexDigits n) = n := by
  induction n using Nat.strong_induction_on with
  | _ n ih =>
    rw [hexDigits]
    split
    · next h =>
      unfold decodeHex
      simp [hexVal_hexChar h]
    · next h =>
      rw [decodeHex_append_singleton, ih (n / 16) (Nat.div_lt_self (by omega) (by omega)),
        hexVal_hexChar (Nat.mod_lt n (by omega))]
      omega

theorem decodeHex_replicate_zero (k : Nat) (ds : List Char) :
    decodeHex (List.replicate k '0' ++ ds) = decodeHex ds := by
  induction k with
  | zero => simp
  | succ k ih =>
    rw [List.replicate_succ, List.cons_append]
    unfold decodeHex at ih ⊢
    rw [List.foldl_cons]
    exact ih

theorem decodeHex_hex4 (n : Nat) : decodeHex (hex4 n) = n := by
  unfold hex4
  rw [decodeHex_replicate_zero, decodeHex_hexDigits]

/-! ### Small facts feeding the claim theorems -/

theorem validPins_le (pin : Nat) (h : pin ∈ validPins) : pin ≤ 255 := by
  fin_cases h <;> decide

/-! ### The claims -/

/-- C1: for every supported digital pin number P and level L, the command
set P high or set P low followed by get P emits exactly the line
d(P): true or d(P): false with the boolean matching L, regardless of the
role (input or output) pin P held before the set: the set transitions the
pin to the output role driving L and prints nothing, and the get reads the
driven level back. -/
theorem C1_set_get_roundtrip (env : Env) (st : St) (pin : Nat) (L : Bool)
    (hpin : pin ∈ validPins) :
    ∃ st2, dispatch env st (setLine pin L) = some (st2, []) ∧
      dispatch env st2 (getLine pin) = some (st2, [dLine pin L]) := by
  refine ⟨updatePin st pin (AnyPin.DigitalOut L), ?_, ?_⟩
  · unfold dispatch
    rw [parse_command_setLine pin L (validPins_le pin hpin)]
    dsimp only
    fin_cases hpin <;> simp [applySet, setLevel_eq]
  · unfold dispatch
    rw [parse_command_getLine pin (validPins_le pin hpin)]
    dsimp only
    unfold getPinValue
    fin_cases hpin <;> simp [updatePin, AnyPin.is_high]

/-- Witness for C1 at pin 2, level high, from the bring-up state. -/
theorem C1_set_get_roundtrip_witness :
    ∃ st2, dispatch env0 st0 (setLine 2 true) = some (st2, []) ∧
      dispatch env0 st2 (getLine 2) = some (st2, [dLine 2 true]) :=
  C1_set_get_roundtrip env0 st0 2 true (by decide)

/-- C2: for every channel that parses as an 8-bit number but lies outside
0-5, the command adc (channel) emits only the channel-variant unknown
message (the source mirrors the digital-pin wording: unknown pin:
(channel), valid pins are 0-5), takes no sample and leaves the state
unchanged so the loop restarts; for channels 0-5 it emits
a(channel): (value) with the sampled value. -/
theorem C2_adc_channel_validation (env : Env) (st : St) (ch : Nat) (h255 : ch ≤ 255) :
    (6 ≤ ch → dispatch env st (adcLine ch) = some (st, [unknownChannelLine ch])) ∧
    (ch ≤ 5 → dispatch env st (adcLine ch) = some (st, [aLine ch (env.adcVal ch)])) := by
  constructor
  · intro h6
    unfold dispatch
    rw [parse_command_adcLine ch h255]
    dsimp only
    unfold adcValue
    rw [if_neg (by omega), if_neg (by omega), if_neg (by omega), if_neg (by omega),
      if_neg (by omega), if_neg (by omega)]
  · intro h5
    unfold dispatch
    rw [parse_command_adcLine ch h255]
    dsimp only
    interval_cases ch <;> rfl

/-- Witness for C2 at out-of-range channel 7. -/
theorem C2_adc_channel_validation_witness :
    dispatch env0 st0 (adcLine 7) = some (st0, [unknownChannelLine 7]) :=
  (C2_adc_channel_validation env0 st0 7 (by decide)).1 (by decide)

/-- C3 counterexample: the claim that an overlong line is discarded in
full with no byte of it interpreted as a later command is false.  The
input here is a single 38-character line (before its newline): 33 times
a, then the text get 2.  The reader fails after 33 bytes, the first
iteration emits nothing, but the trailing text get 2 of the very same
line is then read as the next line and executed: the second iteration
emits the get response d2: false. -/
theorem C3_overflow_tail_executes :
    run env0 2 st0 (List.replicate 33 97 ++ [103, 101, 116, 32, 50, 10]) =
      some (st0, [dLine 2 false], []) ∧
    dLine 2 false = "d2: false" := by
  constructor
  · rfl
  · simp [dLine, natStr, natRepr, boolStr, decChar]

/-- C3 as amended: on a line whose first 33 characters are ASCII and
contain no newline, the read fails with the buffer overflow error, the
iteration emits nothing and the loop resumes with a fresh prompt, and
exactly the first 33 characters are discarded; the remainder of the line
is not consumed and is read as the beginning of the next line. -/
theorem C3_overflow_discards_first33 (env : Env) (st : St) (stream : List Nat)
    (hlen : 33 ≤ stream.length)
    (hbytes : ∀ b ∈ stream.take 33, b ≠ 10 ∧ b < 128) :
    read_line stream = some (Except.error (), stream.drop 33) ∧
    loopStep env st stream = some (st, [], stream.drop 33) := by
  have h := read_line_overflow stream hlen hbytes
  refine ⟨h, ?_⟩
  unfold loopStep
  rw [h]

/-- Witness for the amended C3 on a 40-character all-a stream. -/
theorem C3_overflow_discards_first33_witness :
    read_line (List.replicate 40 97) =
      some (Except.error (), (List.replicate 40 97).drop 33) ∧
    loopStep env0 st0 (List.replicate 40 97) =
      some (st0, [], (List.replicate 40 97).drop 33) :=
  C3_overflow_discards_first33 env0 st0 (List.replicate 40 97) (by decide) (by decide)

/-- C4: a successful parse always consumes the entire line (so a line
with trailing characters after an otherwise valid command can only parse
if the whole line is itself a valid command), and whenever parse_command
fails the dispatch loop performs no hardware operation (the state is
returned unchanged) and emits exactly the line invalid command: (line)
followed by the fixed help line. -/
theorem C4_invalid_command_report :
    (∀ (env : Env) (st : St) (input : List Char), parse_command input = none →
      dispatch env st input = some (st, [invalidLine input, HELP])) ∧
    (∀ (input r : List Char) (c : Command), parse_command input = some (r, c) → r = []) :=
  ⟨fun _ _ _ h => dispatch_parse_fail h,
    fun input r c h => (parse_command_shape input r c h).1⟩

/-- Witness for C4 on the line led sideways. -/
theorem C4_invalid_command_report_witness :
    dispatch env0 st0 ['l', 'e', 'd', ' ', 's', 'i', 'd', 'e', 'w', 'a', 'y', 's'] =
      some (st0, [invalidLine ['l', 'e', 'd', ' ', 's', 'i', 'd', 'e', 'w', 'a', 'y', 's'], HELP]) :=
  C4_invalid_command_report.1 env0 st0 _ (by decide)

/-- C5: pwm 256, and any pwm argument above 255, fails to parse (the u8
overflow inside the parser) and is reported through the generic
invalid-command message rather than a range message; pwm 255 parses,
sets the duty cycle to 255, enables the PWM output and prints nothing. -/
theorem C5_pwm_bounds (env : Env) (st : St) :
    parse_command (pwmLine 256) = none ∧
    dispatch env st (pwmLine 256) = some (st, [invalidLine (pwmLine 256), HELP]) ∧
    (∀ duty, 255 < duty → parse_command (pwmLine duty) = none) ∧
    parse_command (pwmLine 255) = some ([], Command.Pwm 255) ∧
    dispatch env st (pwmLine 255) =
      some ({ st with pwm := { duty := 255, enabled := true } }, []) := by
  have hover : ∀ duty, 255 < duty → parse_command (pwmLine duty) = none := fun duty hd => by
    rw [parse_command_pwmLine duty, if_neg (by omega)]
  have h256 := hover 256 (by omega)
  have h255 : parse_command (pwmLine 255) = some ([], Command.Pwm 255) := by
    rw [parse_command_pwmLine 255, if_pos (by omega)]
  refine ⟨h256, dispatch_parse_fail h256, hover, h255, ?_⟩
  unfold dispatch
  rw [h255]

/-- Witness for C5: both boundary inputs at the concrete start state. -/
theorem C5_pwm_bounds_witness :
    parse_command (pwmLine 256) = none ∧
    dispatch env0 st0 (pwmLine 255) =
      some ({ st0 with pwm := { duty := 255, enabled := true } }, []) :=
  ⟨(C5_pwm_bounds env0 st0).1, (C5_pwm_bounds env0 st0).2.2.2.2⟩

/-- C6: for every pin number that parses as an 8-bit number but is not
one of the ten supported pins, both get (pin) and set (pin) high or low
emit exactly the line unknown pin: (pin), valid pins are 2-4, 6-12 and
leave the state unchanged: no pin role or driven level changes. -/
theorem C6_unknown_pin (env : Env) (st : St) (pin : Nat) (L : Bool)
    (h255 : pin ≤ 255) (hnot : pin ∉ validPins) :
    dispatch env st (getLine pin) = some (st, [unknownPinLine pin]) ∧
    dispatch env st (setLine pin L) = some (st, [unknownPinLine pin]) := by
  simp only [validPins, List.mem_cons, List.not_mem_nil, or_false, not_or] at hnot
  obtain ⟨h2, h3, h4, h6, h7, h8, h9, h10, h11, h12⟩ := hnot
  constructor
  · unfold dispatch
    rw [parse_command_getLine pin h255]
    dsimp only
    unfold getPinValue
    rw [if_neg h2, if_neg h3, if_neg h4, if_neg h6, if_neg h7, if_neg h8, if_neg h9,
      if_neg h10, if_neg h11, if_neg h12]
  · unfold dispatch
    rw [parse_command_setLine pin L h255]
    dsimp only
    rw [if_neg h2, if_neg h3, if_neg h4, if_neg h6, if_neg h7, if_neg h8, if_neg h9,
      if_neg h10, if_neg h11, if_neg h12]

/-- Witness for C6 at the unsupported pin 5. -/
theorem C6_unknown_pin_witness :
    dispatch env0 st0 (getLine 5) = some (st0, [unknownPinLine 5]) ∧
    dispatch env0 st0 (setLine 5 true) = some (st0, [unknownPinLine 5]) :=
  C6_unknown_pin env0 st0 5 true (by decide) (by decide)

/-- C7: for every 16-bit raw temperature reading, the temp command emits
exactly the line temp: 0x followed by exactly four uppercase hexadecimal
digits encoding the reading. -/
theorem C7_temp_format (env : Env) (st : St) (h : env.tempVal < 65536) :
    dispatch env st ['t', 'e', 'm', 'p'] = some (st, [tempLine env.tempVal]) ∧
    (hex4 env.tempVal).length = 4 ∧
    (∀ c ∈ hex4 env.tempVal,
      c ∈ (['0', '1', '2', '3', '4', '5', '6', '7', '8', '9',
        'A', 'B', 'C', 'D', 'E', 'F'] : List Char)) ∧
    decodeHex (hex4 env.tempVal) = env.tempVal :=
  ⟨rfl, hex4_length h, fun c hc => hex4_mem c hc, decodeHex_hex4 _⟩

/-- Witness for C7 at the raw reading 0x0130, which renders as
temp: 0x0130. -/
theorem C7_temp_format_witness :
    (dispatch env0 st0 ['t', 'e', 'm', 'p'] = some (st0, [tempLine 304]) ∧
      (hex4 304).length = 4 ∧
      (∀ c ∈ hex4 304,
        c ∈ (['0', '1', '2', '3', '4', '5', '6', '7', '8', '9',
          'A', 'B', 'C', 'D', 'E', 'F'] : List Char)) ∧
      decodeHex (hex4 304) = 304) ∧
    tempLine 304 = "temp: 0x0130" :=
  ⟨C7_temp_format env0 st0 (by decide), by simp [tempLine, hex4, hexDigits, hexChar]⟩

/-- C9: in set_high and set_low, for every starting role, the preceding
as_output call leaves the pin in the output role, so the source's
diagnostic branch for a non-output pin is never executed: both
operations always succeed (they never return the none that models that
branch) and yield an output pin driving the requested level. -/
theorem C9_set_level_never_unreachable (p : AnyPin) :
    (∃ d, p.as_output = AnyPin.DigitalOut d) ∧
    p.set_high = some (AnyPin.DigitalOut true) ∧
    p.set_low = some (AnyPin.DigitalOut false) := by
  cases p <;> exact ⟨⟨_, rfl⟩, rfl, rfl⟩

/-- Witness for C9 on a pin in the input role. -/
theorem C9_set_level_never_unreachable_witness :
    AnyPin.set_high AnyPin.DigitalIn = some (AnyPin.DigitalOut true) :=
  (C9_set_level_never_unreachable AnyPin.DigitalIn).2.1

/-- C10: the reader appends every received byte before the first newline
to the line without filtering for printability (so carriage returns are
kept); no successfully parsed line contains a carriage return, hence a
command sent with a CRLF terminator yields a line ending in a carriage
return that never matches the grammar and is reported as an invalid
command. -/
theorem C10_unfiltered_bytes_cr_rejected :
    (∀ (pre rest : List Nat), (∀ b ∈ pre, b ≠ 10) →
      (pre.map byteSizeInBuf).sum ≤ 32 →
      read_line (pre ++ 10 :: rest) = some (Except.ok pre, rest)) ∧
    (∀ (input r : List Char) (c : Command), parse_command input = some (r, c) →
      '\r' ∉ input) ∧
    (∀ (env : Env) (st : St) (line : List Char), '\r' ∈ line →
      dispatch env st line = some (st, [invalidLine line, HELP])) := by
  refine ⟨?_, ?_, ?_⟩
  · intro pre rest h1 h2
    have := read_lineAux_ok pre 0 [] rest h1 (by omega)
    simpa using this
  · intro input r c h hcr
    exact (parse_command_shape input r c h).2 '\r' hcr rfl
  · intro env st line hcr
    exact dispatch_parse_fail (parse_command_cr_fails line hcr)

/-- Witness for C10: the command get 2 sent with a CRLF terminator (byte
13 is the carriage return) is read with the carriage return kept and is
then reported as invalid. -/
theorem C10_unfiltered_bytes_cr_rejected_witness :
    read_line ([103, 101, 116, 32, 50, 13] ++ 10 :: []) =
      some (Except.ok [103, 101, 116, 32, 50, 13], []) ∧
    dispatch env0 st0 ['g', 'e', 't', ' ', '2', '\r'] =
      some (st0, [invalidLine ['g', 'e', 't', ' ', '2', '\r'], HELP]) :=
  ⟨C10_unfiltered_bytes_cr_rejected.1 [103, 101, 116, 32, 50, 13] [] (by decide) (by decide),
    C10_unfiltered_bytes_cr_rejected.2.2 env0 st0 _ (by decide)⟩

end MechanicalCrab
